import Mathlib

/-!
Verification development for the activity-log dashboard (`src/app.py`).

The program keeps a flat CSV backing store `data/activity_log.csv` with
columns `Date, Category, Hours`.  We embed

* the backing store as `List Row` (a raw CSV row: the date cell as a list
  of characters, the category as a string, the hours as a rational —
  rationals model the real-number arithmetic of the hours column);
* `load_data` as `loadStore` / `loadData`: every row's date cell is parsed
  and the whole load fails (`none`) when any row fails, mirroring
  `pd.to_datetime(df['Date'], format='mixed')` raising inside the
  `try/except` that ends in `st.stop()`;
* the date parser as `parseDate`, an ISO `YYYY-MM-DD` parser with calendar
  validation — the format the application itself writes
  (`strftime('%Y-%m-%d')` on append, pandas' date-only CSV serialisation
  on delete) and the relevant fragment of pandas' flexible parser;
* the add-form as `appendForm` (read the raw CSV, concatenate the new row
  at the end, rewrite the whole file);
* the delete-form as `deleteSubmit`, including the sort
  `df.sort_values('Date', ascending=False)` performed in the main script
  before the raw-data tab, the display index `reset_index(drop=True)`,
  and `df.drop(indices, axis=0)` which drops by the *original* index
  labels of the sorted frame;
* the aggregator: `filterByWindow` (`df[df['Date'] >= start_date]`),
  `get_time_summary` (`groupby('Category')['Hours'].sum()`, whose default
  `sort=True` orders groups by ascending key), and `weeklySeries`
  (`set_index('Date')['Hours'].resample('W').sum()`, weekly bins ending
  on Sunday over the whole span from the first to the last record,
  empty bins summing to `0`).

Dates are compared and bucketed through `Date.toDays`, the number of days
since 1970-01-01 (the standard civil-calendar algorithm), which is how
pandas timestamps compare.  1970-01-01 was a Thursday, so a day number
`d` falls on a Sunday exactly when `d % 7 = 3`.
-/

/-! ### Decimal digits: printing and parsing of numbers in date cells -/

def charVal (c : Char) : Nat := c.toNat - 48

def natCharsAux : Nat → Nat → List Char
  | 0, _ => []
  | fuel + 1, n =>
      if n = 0 then []
      else natCharsAux fuel (n / 10) ++ [Nat.digitChar (n % 10)]

/-- Decimal representation of a natural number, most significant digit
first (as `str` / `strftime` print it). -/
def natChars (n : Nat) : List Char :=
  if n = 0 then ['0'] else natCharsAux n n

/-- Two-digit zero-padded decimal representation (`%m`, `%d`). -/
def pad2 (n : Nat) : List Char :=
  if n < 10 then '0' :: natChars n else natChars n

def parseNat (s : List Char) : Option Nat :=
  if s.isEmpty then none
  else if s.all Char.isDigit then
    some (s.foldl (fun a c => 10 * a + charVal c) 0)
  else none

/-! ### Dates -/

structure Date where
  year : Nat
  month : Nat
  day : Nat
  deriving DecidableEq, Repr

def isLeap (y : Nat) : Bool :=
  (y % 4 == 0 && y % 100 != 0) || y % 400 == 0

def daysInMonth (y m : Nat) : Nat :=
  if m = 2 then (if isLeap y then 29 else 28)
  else if m = 4 ∨ m = 6 ∨ m = 9 ∨ m = 11 then 30
  else 31

def ValidDate (dt : Date) : Prop :=
  1 ≤ dt.month ∧ dt.month ≤ 12 ∧ 1 ≤ dt.day ∧ dt.day ≤ daysInMonth dt.year dt.month

instance (dt : Date) : Decidable (ValidDate dt) := by
  unfold ValidDate; infer_instance

/-- Split a character list on `'-'` separators. -/
def splitOnDash : List Char → List (List Char)
  | [] => [[]]
  | c :: rest =>
      if c = '-' then [] :: splitOnDash rest
      else
        match splitOnDash rest with
        | [] => [[c]]
        | g :: gs => (c :: g) :: gs

/-- The date parser applied to each cell of the `Date` column: accepts an
ISO `YYYY-MM-DD` date that exists in the civil calendar, fails otherwise.
This is the fragment of `pd.to_datetime(..., format='mixed')` exercised by
the application, which itself always writes `%Y-%m-%d`. -/
def parseDate (s : List Char) : Option Date :=
  match splitOnDash s with
  | [ys, ms, ds] =>
      match parseNat ys, parseNat ms, parseNat ds with
      | some y, some m, some d =>
          if 1 ≤ m ∧ m ≤ 12 ∧ 1 ≤ d ∧ d ≤ daysInMonth y m then
            some ⟨y, m, d⟩
          else none
      | _, _, _ => none
  | _ => none

/-- `strftime('%Y-%m-%d')`, also pandas' serialisation of a date-only
datetime column on `to_csv`. -/
def printDate (dt : Date) : List Char :=
  natChars dt.year ++ '-' :: (pad2 dt.month ++ '-' :: pad2 dt.day)

/-- Days since 1970-01-01 (civil-calendar algorithm, valid for dates from
1970 on, which is all the program manipulates). -/
def Date.toDays (dt : Date) : Nat :=
  let y := if dt.month ≤ 2 then dt.year - 1 else dt.year
  let era := y / 400
  let yoe := y % 400
  let mp := if 2 < dt.month then dt.month - 3 else dt.month + 9
  let doy := (153 * mp + 2) / 5 + dt.day - 1
  let doe := yoe * 365 + yoe / 4 - yoe / 100 + doy
  era * 146097 + doe - 719468

/-! ### The data model: raw CSV rows and parsed records -/

/-- One raw row of `data/activity_log.csv`. -/
structure Row where
  dateChars : List Char
  category : String
  hours : ℚ
  deriving DecidableEq, Repr

/-- One parsed activity record (a row of the loaded dataframe). -/
structure Record where
  date : Date
  category : String
  hours : ℚ
  deriving DecidableEq, Repr

/-- `load_data` on the file contents: parse every row's date; any failure
makes the whole load fail (`pd.to_datetime` raises, the `except` branch
calls `st.stop()` — no partial result). -/
def loadStore : List Row → Option (List Record)
  | [] => some []
  | row :: rest =>
      match parseDate row.dateChars, loadStore rest with
      | some dt, some recs => some (⟨dt, row.category, row.hours⟩ :: recs)
      | _, _ => none

/-- `load_data` including the `FileNotFoundError` branch: `none` stands
for an absent file. -/
def loadData : Option (List Row) → Option (List Record)
  | none => none
  | some rows => loadStore rows

/-- `serializeRecord` is the row pandas writes back for a loaded record
when the whole (date-parsed) dataframe is saved with `to_csv`. -/
def serializeRecord (r : Record) : Row :=
  ⟨printDate r.date, r.category, r.hours⟩

/-- The add-form on submit: `pd.read_csv` (raw rows, no date parsing),
`pd.concat([df, new_data])` putting the new row last, `to_csv` rewriting
the whole file.  The new row's date cell is `new_date.strftime('%Y-%m-%d')`. -/
def appendForm (d : Date) (cat : String) (hrs : ℚ) (store : List Row) : List Row :=
  store ++ [⟨printDate d, cat, hrs⟩]

/-! ### The main script's sort and the delete form -/

/-- `df.sort_values('Date', ascending=False)`: stable descending sort on
the date, the dataframe keeping its original index labels (here the
`Nat` component of each pair).  pandas' default `kind='quicksort'` is
only unstable on ties; we model the stable order, and no theorem below
depends on the order among equal dates. -/
def sortDesc (l : List (Nat × Record)) : List (Nat × Record) :=
  List.insertionSort (fun p q => q.2.date.toDays ≤ p.2.date.toDays) l

/-- The sequence shown in the raw-data tab: the loaded records sorted by
descending date.  `df_display = df.reset_index(drop=True)` shows them with
positions `0, 1, ...` in this order. -/
def displayedSeq (records : List Record) : List Record :=
  (sortDesc records.enum).map Prod.snd

/-- The delete form on submit.  Result: the backing store afterwards and
whether a write happened.  With an empty selection only a warning is shown
and nothing is written.  Otherwise the code runs
`df_final = df.drop(indices_to_delete, axis=0)` — `df` being the *sorted*
frame whose index labels are still the original load positions — and
`df_final.to_csv(...)` rewrites the file in the sorted order, dates
serialised back by pandas as `YYYY-MM-DD`. -/
def deleteSubmit (indices : List Nat) (store : List Row) : List Row × Bool :=
  match loadStore store with
  | none => (store, false)
  | some records =>
      if indices.isEmpty then (store, false)
      else
        let remaining := (sortDesc records.enum).filter
          (fun p => ¬ indices.contains p.1)
        (remaining.map (fun p => serializeRecord p.2), true)

/-! ### The aggregator -/

/-- `df[df['Date'] >= start_date]`: inclusive lower-bound filter.  The
start of the window is a day number, as `today - timedelta(...)` is a
timestamp. -/
def filterByWindow (S : List Record) (start : Nat) : List Record :=
  S.filter (fun r => decide (start ≤ r.date.toDays))

/-- Category labels in order of first appearance, each once. -/
def dedupFirstAux : List String → List String → List String
  | _, [] => []
  | seen, c :: cs =>
      if c ∈ seen then dedupFirstAux seen cs
      else c :: dedupFirstAux (c :: seen) cs

def dedupFirst (l : List String) : List String := dedupFirstAux [] l

/-- The group keys of `df.groupby('Category')`: the distinct category
labels, sorted ascending (`groupby`'s default `sort=True`). -/
def groupKeys (S : List Record) : List String :=
  List.insertionSort (· ≤ ·) (dedupFirst (S.map Record.category))

/-- `get_time_summary`: on an empty frame, or when the hours sum to zero,
return the empty frame and total `0`; otherwise
`groupby('Category')['Hours'].sum()` (one entry per key, ascending key
order) and the total as the sum of the group sums. -/
def get_time_summary (S : List Record) : List (String × ℚ) × ℚ :=
  if S.isEmpty ∨ (S.map Record.hours).sum = 0 then ([], 0)
  else
    let groups := (groupKeys S).map (fun k =>
      (k, ((S.filter (fun r => decide (r.category = k))).map Record.hours).sum))
    (groups, (groups.map Prod.snd).sum)

/-- Day number of the Sunday ending the calendar week that contains day
`d` (`resample('W')` bins, right-closed, labelled by the right edge).
Day 0 = 1970-01-01 was a Thursday, so Sundays are the days `≡ 3 [MOD 7]`. -/
def weekEnd (d : Nat) : Nat := d + (10 - d % 7) % 7

/-- The label of the first weekly bin: the Sunday ending the week of the
earliest record. -/
def weekLo (r : Record) (rs : List Record) : Nat :=
  ((r :: rs).map (fun x => weekEnd x.date.toDays)).foldl min
    (weekEnd r.date.toDays)

/-- The label of the last weekly bin: the Sunday ending the week of the
latest record. -/
def weekHi (r : Record) (rs : List Record) : Nat :=
  ((r :: rs).map (fun x => weekEnd x.date.toDays)).foldl max
    (weekEnd r.date.toDays)

/-- The sum of one weekly bin: total hours of the records whose week ends
on day `w` (`0` when no record falls in the bin). -/
def bucketSum (S : List Record) (w : Nat) : ℚ :=
  ((S.filter (fun x => decide (weekEnd x.date.toDays = w))).map
    Record.hours).sum

/-- The point plotted for the `i`-th weekly bin after the first: its
Sunday label and its bin sum. -/
def weekPoint (S : List Record) (lo : Nat) (i : Nat) : Nat × ℚ :=
  (lo + 7 * i, bucketSum S (lo + 7 * i))

/-- `create_line_chart`'s series:
`df.set_index('Date')['Hours'].resample('W').sum()` — one weekly bin for
every week from the one containing the earliest record to the one
containing the latest, each labelled by its Sunday, the sum over an empty
bin being `0`. -/
def weeklySeries : List Record → List (Nat × ℚ)
  | [] => []
  | r :: rs =>
      (List.range ((weekHi r rs - weekLo r rs) / 7 + 1)).map
        (weekPoint (r :: rs) (weekLo r rs))

/-! ### Concrete data used by witnesses and counterexamples -/

/-- The category order the spec asserts for the summary: insertion order
of first appearance of each category in the grouping operation. -/
def specFirstAppearanceOrder (S : List Record) : List String :=
  dedupFirst (S.map Record.category)

/-- A backing store whose on-disk row order (ascending dates) differs from
the displayed order (descending dates). -/
def exDelStore : List Row :=
  [⟨"2024-01-01".toList, "A", 1⟩, ⟨"2024-01-02".toList, "B", 2⟩]

def exRecA : Record := ⟨⟨2024, 1, 1⟩, "A", 1⟩

def exRecB : Record := ⟨⟨2024, 1, 2⟩, "B", 2⟩

/-- Two records three weeks apart: the weeks between them are empty. -/
def exWeekly : List Record :=
  [⟨⟨1970, 1, 1⟩, "A", 1⟩, ⟨⟨1970, 1, 20⟩, "B", 2⟩]

def exStore3 : List Row := [⟨"2024-01-01".toList, "A", 1⟩]

def exGoodRow : Row := ⟨"2024-01-01".toList, "A", 1⟩

/-- A row whose date cell no date parser accepts. -/
def exBadRow : Row := ⟨"not-a-date".toList, "X", 2⟩

/-- Categories appear in the order B, A — the reverse of alphabetical. -/
def exC8 : List Record :=
  [⟨⟨2024, 1, 2⟩, "B", 2⟩, ⟨⟨2024, 1, 1⟩, "A", 1⟩]

/-- A non-empty sequence whose hours sum to zero. -/
def exC9 : List Record := [⟨⟨2024, 1, 1⟩, "A", 0⟩]

/-! ### Printing and re-parsing decimal numbers round-trips -/

lemma natCharsAux_zero (fuel : Nat) : natCharsAux fuel 0 = [] := by
  cases fuel <;> simp [natCharsAux]

lemma charVal_digitChar : ∀ d : Nat, d < 10 → charVal (Nat.digitChar d) = d := by
  decide

lemma isDigit_digitChar : ∀ d : Nat, d < 10 → (Nat.digitChar d).isDigit = true := by
  decide

lemma natCharsAux_spec :
    ∀ fuel m : Nat, m ≤ fuel → m ≠ 0 →
      natCharsAux fuel m ≠ [] ∧
      (∀ c ∈ natCharsAux fuel m, c.isDigit = true) ∧
      ∀ a : Nat,
        (natCharsAux fuel m).foldl (fun a c => 10 * a + charVal c) a
          = a * 10 ^ (natCharsAux fuel m).length + m := by
  intro fuel
  induction fuel with
  | zero => intro m hm hm0; omega
  | succ fuel ih =>
      intro m hm hm0
      have hunf : natCharsAux (fuel + 1) m
          = natCharsAux fuel (m / 10) ++ [Nat.digitChar (m % 10)] := by
        simp [natCharsAux, hm0]
      by_cases hq : m / 10 = 0
      · have hm10 : m % 10 = m := Nat.mod_eq_of_lt (by omega)
        rw [hunf, hq, natCharsAux_zero]
        refine ⟨by simp, ?_, ?_⟩
        · intro c hc
          simp only [List.nil_append, List.mem_singleton] at hc
          subst hc
          exact isDigit_digitChar _ (by omega)
        · intro a
          simp only [List.nil_append, List.foldl_cons, List.foldl_nil,
            List.length_singleton, pow_one]
          rw [hm10, charVal_digitChar m (by omega)]
          omega
      · have hq' : m / 10 ≤ fuel := by
          have : m / 10 < m := Nat.div_lt_self (by omega) (by omega)
          omega
        obtain ⟨hne, hdig, hfold⟩ := ih (m / 10) hq' hq
        rw [hunf]
        refine ⟨by simp, ?_, ?_⟩
        · intro c hc
          rcases List.mem_append.mp hc with hc | hc
          · exact hdig c hc
          · simp only [List.mem_singleton] at hc
            subst hc
            exact isDigit_digitChar _ (Nat.mod_lt _ (by omega))
        · intro a
          rw [List.foldl_append, hfold a]
          simp only [List.foldl_cons, List.foldl_nil, List.length_append,
            List.length_singleton]
          rw [charVal_digitChar _ (Nat.mod_lt _ (by omega))]
          have hpow : a * 10 ^ ((natCharsAux fuel (m / 10)).length + 1)
              = a * 10 ^ (natCharsAux fuel (m / 10)).length * 10 := by
            ring
          rw [hpow]
          have hm' : 10 * (m / 10) + m % 10 = m := Nat.div_add_mod m 10
          set A := a * 10 ^ (natCharsAux fuel (m / 10)).length with hA
          omega

lemma natChars_ne_nil (n : Nat) : natChars n ≠ [] := by
  by_cases h : n = 0
  · subst h; simp [natChars]
  · simp only [natChars, if_neg h]
    exact (natCharsAux_spec n n le_rfl h).1

lemma natChars_digits (n : Nat) : ∀ c ∈ natChars n, c.isDigit = true := by
  by_cases h : n = 0
  · subst h; intro c hc; simp [natChars] at hc; subst hc; decide
  · simp only [natChars, if_neg h]
    exact (natCharsAux_spec n n le_rfl h).2.1

lemma natChars_foldl (n : Nat) :
    (natChars n).foldl (fun a c => 10 * a + charVal c) 0 = n := by
  by_cases h : n = 0
  · subst h; decide
  · simp only [natChars, if_neg h]
    rw [(natCharsAux_spec n n le_rfl h).2.2 0]
    simp

lemma parseNat_natChars (n : Nat) : parseNat (natChars n) = some n := by
  have hne := natChars_ne_nil n
  have hdig := natChars_digits n
  simp only [parseNat, List.isEmpty_iff, if_neg hne, List.all_eq_true]
  rw [if_pos (fun c hc => hdig c hc), natChars_foldl]

lemma pad2_digits (n : Nat) : ∀ c ∈ pad2 n, c.isDigit = true := by
  unfold pad2
  split
  · intro c hc
    rcases List.mem_cons.mp hc with hc | hc
    · subst hc; decide
    · exact natChars_digits n c hc
  · exact natChars_digits n

lemma parseNat_pad2 (n : Nat) : parseNat (pad2 n) = some n := by
  by_cases h : n < 10
  · simp only [pad2, if_pos h]
    have hdig := natChars_digits n
    simp only [parseNat, List.isEmpty_iff, if_neg (List.cons_ne_nil _ _),
      List.all_eq_true]
    rw [if_pos ?_]
    · simp only [List.foldl_cons]
      have h0 : 10 * 0 + charVal '0' = 0 := by decide
      rw [h0, natChars_foldl]
    · intro c hc
      rcases List.mem_cons.mp hc with hc | hc
      · subst hc; decide
      · exact hdig c hc
  · simp only [pad2, if_neg h]
    exact parseNat_natChars n

lemma isDigit_ne_dash {c : Char} (h : c.isDigit = true) : c ≠ '-' := by
  intro hc
  rw [hc] at h
  exact absurd h (by decide)

/-! ### Splitting on dashes -/

lemma splitOnDash_noDash (a : List Char) (ha : ∀ c ∈ a, c ≠ '-') :
    splitOnDash a = [a] := by
  induction a with
  | nil => rfl
  | cons c cs ih =>
      have hc : c ≠ '-' := ha c (List.mem_cons_self c cs)
      have hcs := ih (fun x hx => ha x (List.mem_cons_of_mem c hx))
      simp [splitOnDash, hc, hcs]

lemma splitOnDash_append (a b : List Char) (ha : ∀ c ∈ a, c ≠ '-') :
    splitOnDash (a ++ '-' :: b) = a :: splitOnDash b := by
  induction a with
  | nil => simp [splitOnDash]
  | cons c cs ih =>
      have hc : c ≠ '-' := ha c (List.mem_cons_self c cs)
      have hcs := ih (fun x hx => ha x (List.mem_cons_of_mem c hx))
      simp [splitOnDash, hc, hcs]

lemma parseDate_printDate (dt : Date) (h : ValidDate dt) :
    parseDate (printDate dt) = some dt := by
  obtain ⟨h1, h2, h3, h4⟩ := h
  have hy : ∀ c ∈ natChars dt.year, c ≠ '-' :=
    fun c hc => isDigit_ne_dash (natChars_digits _ c hc)
  have hm : ∀ c ∈ pad2 dt.month, c ≠ '-' :=
    fun c hc => isDigit_ne_dash (pad2_digits _ c hc)
  have hd : ∀ c ∈ pad2 dt.day, c ≠ '-' :=
    fun c hc => isDigit_ne_dash (pad2_digits _ c hc)
  unfold parseDate printDate
  rw [splitOnDash_append _ _ hy, splitOnDash_append _ _ hm,
    splitOnDash_noDash _ hd]
  simp [parseNat_natChars, parseNat_pad2, h1, h2, h3, h4]

/-! ### Loading: basic lemmas -/

lemma loadStore_append (l1 l2 : List Row) :
    loadStore (l1 ++ l2)
      = (loadStore l1).bind (fun a => (loadStore l2).map (fun b => a ++ b)) := by
  induction l1 with
  | nil =>
      cases h : loadStore l2 <;> simp [loadStore, h]
  | cons row rest ih =>
      simp only [List.cons_append, loadStore]
      cases hp : parseDate row.dateChars <;>
        cases hr : loadStore rest <;>
          cases h2 : loadStore l2 <;>
            simp [ih, hr, h2]

lemma loadStore_fail (rows : List Row)
    (h : ∃ row ∈ rows, parseDate row.dateChars = none) :
    loadStore rows = none := by
  induction rows with
  | nil => simp at h
  | cons row rest ih =>
      obtain ⟨bad, hmem, hbad⟩ := h
      rcases List.mem_cons.mp hmem with rfl | hmem'
      · simp [loadStore, hbad]
      · have := ih ⟨bad, hmem', hbad⟩
        cases hp : parseDate row.dateChars <;> simp [loadStore, hp, this]

/-! ### Aggregator lemmas -/

lemma sum_map_filter_add (S : List Record) (p : Record → Bool) :
    ((S.filter p).map Record.hours).sum
        + ((S.filter (fun r => ! p r)).map Record.hours).sum
      = (S.map Record.hours).sum := by
  induction S with
  | nil => simp
  | cons r rs ih =>
      cases hp : p r <;>
        simp only [List.filter_cons, hp, Bool.not_true, Bool.not_false,
          if_pos, if_neg, List.map_cons, List.sum_cons, ite_true, ite_false,
          Bool.false_eq_true, Bool.true_eq_false] <;>
        rw [← ih] <;> ring

lemma dedupFirstAux_mem (x : String) :
    ∀ (l seen : List String), x ∈ dedupFirstAux seen l ↔ x ∈ l ∧ x ∉ seen := by
  intro l
  induction l with
  | nil => intro seen; simp [dedupFirstAux]
  | cons c cs ih =>
      intro seen
      by_cases hc : c ∈ seen
      · rw [show dedupFirstAux seen (c :: cs) = dedupFirstAux seen cs by
          simp [dedupFirstAux, hc]]
        rw [ih seen]
        constructor
        · rintro ⟨h1, h2⟩; exact ⟨List.mem_cons_of_mem c h1, h2⟩
        · rintro ⟨h1, h2⟩
          rcases List.mem_cons.mp h1 with rfl | h1'
          · exact absurd hc h2
          · exact ⟨h1', h2⟩
      · rw [show dedupFirstAux seen (c :: cs) = c :: dedupFirstAux (c :: seen) cs by
          simp [dedupFirstAux, hc]]
        rw [List.mem_cons, ih (c :: seen)]
        constructor
        · rintro (rfl | ⟨h1, h2⟩)
          · exact ⟨List.mem_cons_self _ _, hc⟩
          · exact ⟨List.mem_cons_of_mem c h1,
              fun hx => h2 (List.mem_cons_of_mem c hx)⟩
        · rintro ⟨h1, h2⟩
          rcases List.mem_cons.mp h1 with rfl | h1'
          · exact Or.inl rfl
          · by_cases hxc : x = c
            · exact Or.inl hxc
            · exact Or.inr ⟨h1', fun hx => by
                rcases List.mem_cons.mp hx with h | h
                · exact hxc h
                · exact h2 h⟩

lemma dedupFirstAux_nodup :
    ∀ (l seen : List String), (dedupFirstAux seen l).Nodup := by
  intro l
  induction l with
  | nil => intro seen; simp [dedupFirstAux]
  | cons c cs ih =>
      intro seen
      by_cases hc : c ∈ seen
      · rw [show dedupFirstAux seen (c :: cs) = dedupFirstAux seen cs by
          simp [dedupFirstAux, hc]]
        exact ih seen
      · rw [show dedupFirstAux seen (c :: cs) = c :: dedupFirstAux (c :: seen) cs by
          simp [dedupFirstAux, hc]]
        refine List.nodup_cons.mpr ⟨?_, ih (c :: seen)⟩
        intro hmem
        exact ((dedupFirstAux_mem c cs (c :: seen)).mp hmem).2
          (List.mem_cons_self _ _)

lemma dedupFirst_mem (x : String) (l : List String) :
    x ∈ dedupFirst l ↔ x ∈ l := by
  unfold dedupFirst
  rw [dedupFirstAux_mem]
  simp

lemma dedupFirst_nodup (l : List String) : (dedupFirst l).Nodup :=
  dedupFirstAux_nodup l []

lemma groupKeys_perm (S : List Record) :
    (groupKeys S).Perm (dedupFirst (S.map Record.category)) :=
  List.perm_insertionSort _ _

lemma groupKeys_mem (k : String) (S : List Record) :
    k ∈ groupKeys S ↔ k ∈ S.map Record.category := by
  rw [(groupKeys_perm S).mem_iff, dedupFirst_mem]

lemma groupKeys_nodup (S : List Record) : (groupKeys S).Nodup :=
  ((groupKeys_perm S).nodup_iff).mpr (dedupFirst_nodup _)

lemma groupKeys_sorted (S : List Record) :
    (groupKeys S).Sorted (· ≤ ·) :=
  List.sorted_insertionSort _ _

lemma sum_groups :
    ∀ (keys : List String) (S : List Record), keys.Nodup →
      (∀ r ∈ S, r.category ∈ keys) →
      (keys.map (fun k =>
          ((S.filter (fun r => decide (r.category = k))).map Record.hours).sum)).sum
        = (S.map Record.hours).sum := by
  intro keys
  induction keys with
  | nil =>
      intro S _ hcov
      have hS : S = [] := List.eq_nil_iff_forall_not_mem.mpr
        (fun r hr => by simpa using hcov r hr)
      subst hS; simp
  | cons k ks ih =>
      intro S hnd hcov
      have hknotin : k ∉ ks := (List.nodup_cons.mp hnd).1
      have hndks : ks.Nodup := (List.nodup_cons.mp hnd).2
      rw [List.map_cons, List.sum_cons]
      rw [← sum_map_filter_add S (fun r => decide (r.category = k))]
      congr 1
      have hcov' : ∀ r ∈ S.filter (fun r => ! decide (r.category = k)),
          r.category ∈ ks := by
        intro r hr
        have hmem := List.mem_of_mem_filter hr
        have hne : r.category ≠ k := by
          have := List.of_mem_filter hr
          simpa using this
        rcases List.mem_cons.mp (hcov r hmem) with h | h
        · exact absurd h hne
        · exact h
      rw [← ih (S.filter (fun r => ! decide (r.category = k))) hndks hcov']
      refine congrArg List.sum (List.map_congr_left ?_)
      intro k' hk'
      have hk'k : k' ≠ k := fun h => hknotin (h ▸ hk')
      congr 1
      rw [List.filter_filter]
      congr 1
      refine List.filter_congr ?_
      intro r _
      by_cases hca : r.category = k' <;> simp [hca, hk'k]

lemma get_time_summary_total (S : List Record) :
    (get_time_summary S).2 = (S.map Record.hours).sum := by
  unfold get_time_summary
  split
  · rename_i hcoll
    rcases hcoll with h | h
    · rw [List.isEmpty_iff.mp h]; simp
    · simp [h]
  · simp only []
    rw [List.map_map]
    have : (fun k =>
        ((S.filter (fun r => decide (r.category = k))).map Record.hours).sum)
        = Prod.snd ∘ (fun k => (k,
          ((S.filter (fun r => decide (r.category = k))).map Record.hours).sum)) := rfl
    rw [← this]
    refine sum_groups (groupKeys S) S (groupKeys_nodup S) ?_
    intro r hr
    rw [groupKeys_mem]
    exact List.mem_map_of_mem Record.category hr

lemma sum_hours_filter_mono (S : List Record) (p q : Record → Bool)
    (hpq : ∀ r ∈ S, p r = true → q r = true)
    (hpos : ∀ r ∈ S, 0 ≤ r.hours) :
    ((S.filter p).map Record.hours).sum
      ≤ ((S.filter q).map Record.hours).sum := by
  induction S with
  | nil => simp
  | cons r rs ih =>
      have ih' := ih (fun x hx => hpq x (List.mem_cons_of_mem r hx))
        (fun x hx => hpos x (List.mem_cons_of_mem r hx))
      have hr0 : 0 ≤ r.hours := hpos r (List.mem_cons_self r rs)
      cases hp : p r
      · cases hq : q r
        · simpa [List.filter_cons, hp, hq] using ih'
        · simp only [List.filter_cons, hp, hq, ite_true, ite_false,
            Bool.false_eq_true, List.map_cons, List.sum_cons]
          calc ((rs.filter p).map Record.hours).sum
              ≤ ((rs.filter q).map Record.hours).sum := ih'
            _ ≤ r.hours + ((rs.filter q).map Record.hours).sum := by
                exact le_add_of_nonneg_left hr0
      · have hq : q r = true := hpq r (List.mem_cons_self r rs) hp
        simp only [List.filter_cons, hp, hq, ite_true, List.map_cons,
          List.sum_cons]
        exact add_le_add_left ih' r.hours

/-! ### Weekly series lemmas -/

lemma weekEnd_mod (d : Nat) : weekEnd d % 7 = 3 := by
  unfold weekEnd; omega

lemma le_weekEnd (d : Nat) : d ≤ weekEnd d := Nat.le_add_right _ _

lemma foldl_min_le_init : ∀ (l : List Nat) (a : Nat), l.foldl min a ≤ a := by
  intro l
  induction l with
  | nil => intro a; simp
  | cons x xs ih =>
      intro a
      calc (x :: xs).foldl min a = xs.foldl min (min a x) := rfl
        _ ≤ min a x := ih (min a x)
        _ ≤ a := min_le_left a x

lemma foldl_min_le_mem : ∀ (l : List Nat) (a x : Nat), x ∈ l → l.foldl min a ≤ x := by
  intro l
  induction l with
  | nil => intro a x hx; simp at hx
  | cons y ys ih =>
      intro a x hx
      rcases List.mem_cons.mp hx with rfl | hx'
      · calc (x :: ys).foldl min a = ys.foldl min (min a x) := rfl
          _ ≤ min a x := foldl_min_le_init ys (min a x)
          _ ≤ x := min_le_right a x
      · exact ih (min a y) x hx'

lemma foldl_min_cases : ∀ (l : List Nat) (a : Nat), l.foldl min a = a ∨ l.foldl min a ∈ l := by
  intro l
  induction l with
  | nil => intro a; exact Or.inl rfl
  | cons y ys ih =>
      intro a
      rcases ih (min a y) with h | h
      · rcases Nat.le_total a y with hay | hya
        · exact Or.inl (by simpa [min_eq_left hay] using h)
        · refine Or.inr ?_
          rw [show (y :: ys).foldl min a = ys.foldl min (min a y) from rfl, h,
            min_eq_right hya]
          exact List.mem_cons_self y ys
      · exact Or.inr (List.mem_cons_of_mem y h)

lemma init_le_foldl_max : ∀ (l : List Nat) (a : Nat), a ≤ l.foldl max a := by
  intro l
  induction l with
  | nil => intro a; simp
  | cons x xs ih =>
      intro a
      calc a ≤ max a x := le_max_left a x
        _ ≤ xs.foldl max (max a x) := ih (max a x)
        _ = (x :: xs).foldl max a := rfl

lemma mem_le_foldl_max : ∀ (l : List Nat) (a x : Nat), x ∈ l → x ≤ l.foldl max a := by
  intro l
  induction l with
  | nil => intro a x hx; simp at hx
  | cons y ys ih =>
      intro a x hx
      rcases List.mem_cons.mp hx with rfl | hx'
      · calc x ≤ max a x := le_max_right a x
          _ ≤ ys.foldl max (max a x) := init_le_foldl_max ys (max a x)
          _ = (x :: ys).foldl max a := rfl
      · exact ih (max a y) x hx'

lemma foldl_max_cases : ∀ (l : List Nat) (a : Nat), l.foldl max a = a ∨ l.foldl max a ∈ l := by
  intro l
  induction l with
  | nil => intro a; exact Or.inl rfl
  | cons y ys ih =>
      intro a
      rcases ih (max a y) with h | h
      · rcases Nat.le_total a y with hay | hya
        · refine Or.inr ?_
          rw [show (y :: ys).foldl max a = ys.foldl max (max a y) from rfl, h,
            max_eq_right hay]
          exact List.mem_cons_self y ys
        · exact Or.inl (by simpa [max_eq_left hya] using h)
      · exact Or.inr (List.mem_cons_of_mem y h)

lemma weekLo_le (r : Record) (rs : List Record) (x : Record)
    (hx : x ∈ r :: rs) : weekLo r rs ≤ weekEnd x.date.toDays := by
  unfold weekLo
  exact foldl_min_le_mem _ _ _ (List.mem_map_of_mem _ hx)

lemma le_weekHi (r : Record) (rs : List Record) (x : Record)
    (hx : x ∈ r :: rs) : weekEnd x.date.toDays ≤ weekHi r rs := by
  unfold weekHi
  exact mem_le_foldl_max _ _ _ (List.mem_map_of_mem _ hx)

lemma weekLo_mod (r : Record) (rs : List Record) : weekLo r rs % 7 = 3 := by
  unfold weekLo
  rcases foldl_min_cases ((r :: rs).map (fun x => weekEnd x.date.toDays))
      (weekEnd r.date.toDays) with h | h
  · rw [h]; exact weekEnd_mod _
  · obtain ⟨x, _, hx⟩ := List.mem_map.mp h
    rw [← hx]; exact weekEnd_mod _

lemma weekPoint_fst (S : List Record) (lo i : Nat) :
    (weekPoint S lo i).1 = lo + 7 * i := rfl

lemma weekPoint_snd (S : List Record) (lo i : Nat) :
    (weekPoint S lo i).2 = bucketSum S (lo + 7 * i) := rfl

lemma weeklySeries_point (r : Record) (rs : List Record) (p : Nat × ℚ)
    (hp : p ∈ weeklySeries (r :: rs)) :
    ∃ i, i < (weekHi r rs - weekLo r rs) / 7 + 1 ∧
      p.1 = weekLo r rs + 7 * i ∧
      p.2 = bucketSum (r :: rs) (weekLo r rs + 7 * i) := by
  unfold weeklySeries at hp
  obtain ⟨i, hi, hfp⟩ := List.mem_map.mp hp
  refine ⟨i, List.mem_range.mp hi, ?_, ?_⟩
  · rw [← hfp, weekPoint_fst]
  · rw [← hfp, weekPoint_snd]

lemma mem_weeklySeries_labels (r : Record) (rs : List Record) (w : Nat) :
    w ∈ (weeklySeries (r :: rs)).map Prod.fst ↔
      ∃ i, i < (weekHi r rs - weekLo r rs) / 7 + 1 ∧ w = weekLo r rs + 7 * i := by
  unfold weeklySeries
  rw [List.map_map]
  constructor
  · intro hw
    obtain ⟨i, hi, hw'⟩ := List.mem_map.mp hw
    refine ⟨i, List.mem_range.mp hi, ?_⟩
    rw [← hw']
    exact weekPoint_fst (r :: rs) (weekLo r rs) i
  · rintro ⟨i, hi, rfl⟩
    exact List.mem_map.mpr ⟨i, List.mem_range.mpr hi, weekPoint_fst _ _ i⟩

/-! ### Claim theorems -/

set_option maxRecDepth 8000 in
/-- C1: the claim says `delete(P)` removes the positions `P` of the
currently displayed sequence and a subsequent `load()` returns the
survivors.  The code contradicts its own UI (which offers the displayed
`Index` column, positions into the date-sorted view) because
`df.drop(indices_to_delete)` drops by the original load-order index
labels that `sort_values` leaves on `df`.  Concretely: the displayed
sequence of `exDelStore` is `[exRecB, exRecA]`, so deleting position `0`
must remove `exRecB` and leave `[exRecA]`; the code instead removes
`exRecA` (the row whose original label is `0`) and `load()` afterwards
yields `[exRecB]`. -/
theorem C1_delete_drops_wrong_row :
    loadStore exDelStore = some [exRecA, exRecB] ∧
    displayedSeq [exRecA, exRecB] = [exRecB, exRecA] ∧
    (deleteSubmit [0] exDelStore).2 = true ∧
    loadStore (deleteSubmit [0] exDelStore).1 = some [exRecB] ∧
    [exRecB] ≠ [exRecA] := by
  refine ⟨by decide, by decide, by decide, by decide, by decide⟩

/-- C2 counterexample: on `exWeekly` the weekly series has the four
labels 3, 10, 17, 24 (Sundays of consecutive weeks), although the weeks
labelled 10 and 17 contain no record — refuting "weeks with no records
produce no point". -/
theorem C2_counterexample_zero_filled_gap :
    (weeklySeries exWeekly).map Prod.fst = [3, 10, 17, 24] ∧
    (∀ x ∈ exWeekly, weekEnd x.date.toDays ≠ 17) ∧
    17 ∈ (weeklySeries exWeekly).map Prod.fst := by
  refine ⟨by decide, by decide, by decide⟩

/-- C2 (amended): for every non-empty record sequence, `weeklySeries`
buckets records into calendar weeks ending on Sunday and sums hours per
bucket, producing, in chronological order, exactly one point for *every*
week from the week of the earliest record to the week of the latest
record inclusive; each point's value is the bucket sum of its week, and
weeks in this span with no records also produce a point (whose bucket sum
is zero) — the gaps are zero-filled. -/
theorem C2_weekly_series_amended (S : List Record) (hne : S ≠ []) :
    ((weeklySeries S).map Prod.fst).Pairwise (· < ·) ∧
    (∀ p ∈ weeklySeries S, p.1 % 7 = 3) ∧
    (∀ p ∈ weeklySeries S, p.2 = bucketSum S p.1) ∧
    (∀ x ∈ S, weekEnd x.date.toDays ∈ (weeklySeries S).map Prod.fst) ∧
    (∀ w, w % 7 = 3 →
      (∃ x ∈ S, weekEnd x.date.toDays ≤ w) →
      (∃ x ∈ S, w ≤ weekEnd x.date.toDays) →
      w ∈ (weeklySeries S).map Prod.fst) := by
  rcases S with _ | ⟨r, rs⟩
  · exact absurd rfl hne
  have hlomod := weekLo_mod r rs
  refine ⟨?_, ?_, ?_, ?_, ?_⟩
  · unfold weeklySeries
    rw [List.map_map]
    refine List.pairwise_map.mpr ?_
    refine (List.pairwise_lt_range _).imp ?_
    intro i j hij
    show weekLo r rs + 7 * i < weekLo r rs + 7 * j
    omega
  · intro p hp
    obtain ⟨i, _, h1, _⟩ := weeklySeries_point r rs p hp
    rw [h1]
    omega
  · intro p hp
    obtain ⟨i, _, h1, h2⟩ := weeklySeries_point r rs p hp
    rw [h1, h2]
  · intro x hx
    rw [mem_weeklySeries_labels]
    have h1 := weekLo_le r rs x hx
    have h2 := le_weekHi r rs x hx
    have h3 := weekEnd_mod x.date.toDays
    exact ⟨(weekEnd x.date.toDays - weekLo r rs) / 7, by omega, by omega⟩
  · rintro w hw ⟨x, hx, hxw⟩ ⟨x', hx', hwx'⟩
    rw [mem_weeklySeries_labels]
    have h1 := weekLo_le r rs x hx
    have h2 := le_weekHi r rs x' hx'
    exact ⟨(w - weekLo r rs) / 7, by omega, by omega⟩

/-- Witness for C2 (amended) at the concrete sequence `exWeekly`. -/
theorem C2_weekly_series_amended_witness :
    exWeekly ≠ [] ∧
    (((weeklySeries exWeekly).map Prod.fst).Pairwise (· < ·) ∧
     (∀ p ∈ weeklySeries exWeekly, p.1 % 7 = 3) ∧
     (∀ p ∈ weeklySeries exWeekly, p.2 = bucketSum exWeekly p.1) ∧
     (∀ x ∈ exWeekly,
        weekEnd x.date.toDays ∈ (weeklySeries exWeekly).map Prod.fst) ∧
     (∀ w, w % 7 = 3 →
        (∃ x ∈ exWeekly, weekEnd x.date.toDays ≤ w) →
        (∃ x ∈ exWeekly, w ≤ weekEnd x.date.toDays) →
        w ∈ (weeklySeries exWeekly).map Prod.fst)) :=
  ⟨by decide, C2_weekly_series_amended exWeekly (by decide)⟩

/-- C3: `load()` after `append(r)` yields the previous sequence with `r`
appended as the last element — the append reads the whole store, puts the
new row last, and rewrites everything, and the new row's date cell
round-trips through the parser. -/
theorem C3_append_round_trip (store : List Row) (S : List Record)
    (d : Date) (c : String) (h : ℚ)
    (hload : loadStore store = some S) (hd : ValidDate d) :
    loadStore (appendForm d c h store) = some (S ++ [⟨d, c, h⟩]) := by
  unfold appendForm
  rw [loadStore_append, hload]
  simp [loadStore, parseDate_printDate d hd]

/-- Witness for C3 at a concrete store and record. -/
theorem C3_append_round_trip_witness :
    loadStore exStore3 = some [exRecA] ∧ ValidDate ⟨2024, 2, 29⟩ ∧
    loadStore (appendForm ⟨2024, 2, 29⟩ "ES" 2 exStore3)
      = some ([exRecA] ++ [⟨⟨2024, 2, 29⟩, "ES", 2⟩]) :=
  ⟨by decide, by decide,
    C3_append_round_trip exStore3 [exRecA] ⟨2024, 2, 29⟩ "ES" 2
      (by decide) (by decide)⟩

/-- C4: the load fails fatally with no partial result when the backing
file is absent or any row's date cell cannot be parsed — it never returns
a sequence that skips the bad row. -/
theorem C4_load_fails_fatally :
    loadData none = none ∧
    ∀ rows : List Row, (∃ row ∈ rows, parseDate row.dateChars = none) →
      loadData (some rows) = none :=
  ⟨rfl, fun rows h => loadStore_fail rows h⟩

/-- Witness for C4: a store with one good and one malformed row loads to
nothing at all. -/
theorem C4_load_fails_fatally_witness :
    (∃ row ∈ [exGoodRow, exBadRow], parseDate row.dateChars = none) ∧
    loadData (some [exGoodRow, exBadRow]) = none :=
  ⟨⟨exBadRow, by decide, by decide⟩,
    C4_load_fails_fatally.2 [exGoodRow, exBadRow]
      ⟨exBadRow, by decide, by decide⟩⟩

/-- C5: with the "all time" window (no filtering), the grand total of the
summary equals the sum of the hours of all records, and also equals the
sum of the per-category group totals. -/
theorem C5_sum_conservation (S : List Record) :
    (get_time_summary S).2 = (S.map Record.hours).sum ∧
    (get_time_summary S).2 = ((get_time_summary S).1.map Prod.snd).sum := by
  refine ⟨get_time_summary_total S, ?_⟩
  unfold get_time_summary
  split
  · simp
  · rfl

/-- C6: for windows `W1 ⊆ W2` (the start of `W2` at or before the start
of `W1`) and non-negative hours, the grand total over the narrower window
is at most the grand total over the wider one. -/
theorem C6_window_monotonicity (S : List Record) (s1 s2 : Nat)
    (hpos : ∀ r ∈ S, 0 ≤ r.hours) (hw : s2 ≤ s1) :
    (get_time_summary (filterByWindow S s1)).2
      ≤ (get_time_summary (filterByWindow S s2)).2 := by
  rw [get_time_summary_total, get_time_summary_total]
  unfold filterByWindow
  refine sum_hours_filter_mono S _ _ ?_ hpos
  intro r _ hp
  exact decide_eq_true (le_trans hw (of_decide_eq_true hp))

/-- Witness for C6 at a concrete sequence and pair of nested windows. -/
theorem C6_window_monotonicity_witness :
    (∀ r ∈ [exRecA, exRecB], 0 ≤ r.hours) ∧ (19700 : Nat) ≤ 19724 ∧
    (get_time_summary (filterByWindow [exRecA, exRecB] 19724)).2
      ≤ (get_time_summary (filterByWindow [exRecA, exRecB] 19700)).2 :=
  ⟨by decide, by decide,
    C6_window_monotonicity [exRecA, exRecB] 19724 19700
      (by decide) (by decide)⟩

/-- C7: the window filter is an inclusive lower bound — the result
contains exactly the records with `record.date >= startDate` (a sublist
of the input, so in input order), and filtering the empty sequence yields
the empty result. -/
theorem C7_filter_inclusive_lower_bound (S : List Record) (start : Nat)
    (r : Record) :
    (r ∈ filterByWindow S start ↔ r ∈ S ∧ start ≤ r.date.toDays) ∧
    (filterByWindow S start).Sublist S ∧
    filterByWindow [] start = [] := by
  refine ⟨?_, List.filter_sublist S, rfl⟩
  simp [filterByWindow, List.mem_filter]

/-- C8 counterexample: on `exC8` the summary iterates categories in
sorted order `["A", "B"]`, not in the first-appearance order
`["B", "A"]` the claim asserts. -/
theorem C8_counterexample_sorted_not_insertion_order :
    ((get_time_summary exC8).1.map Prod.fst) = ["A", "B"] ∧
    specFirstAppearanceOrder exC8 = ["B", "A"] ∧
    (["A", "B"] : List String) ≠ ["B", "A"] := by
  have hcond : ¬ (exC8.isEmpty ∨ (exC8.map Record.hours).sum = 0) := by
    norm_num [exC8]
  have hkeys : groupKeys exC8 = ["A", "B"] := by
    refine List.eq_of_perm_of_sorted
      ((groupKeys_perm exC8).trans ?_) (groupKeys_sorted exC8) ?_
    · have hdf : dedupFirst (exC8.map Record.category) = ["B", "A"] := by
        decide
      rw [hdf]
      exact List.Perm.swap _ _ _
    · simp [List.Sorted]
      decide
  refine ⟨?_, by decide, by decide⟩
  unfold get_time_summary
  rw [if_neg hcond]
  simp only [List.map_map]
  show (groupKeys exC8).map (fun k => k) = ["A", "B"]
  rw [List.map_id']
  exact hkeys

/-- C8 (amended): whenever the summary is not the empty-result marker,
the category iteration order of the mapping produced by
`get_time_summary` is the ascending lexicographic order of the category
labels (pandas `groupby` sorts its keys), each label exactly once — not
the insertion order of first appearance. -/
theorem C8_amended_sorted_categories (S : List Record)
    (hne : ¬ (S.isEmpty ∨ (S.map Record.hours).sum = 0)) :
    ((get_time_summary S).1.map Prod.fst).Sorted (· < ·) ∧
    ∀ k, k ∈ (get_time_summary S).1.map Prod.fst ↔
      k ∈ S.map Record.category := by
  have hkeys : (get_time_summary S).1.map Prod.fst = groupKeys S := by
    unfold get_time_summary
    rw [if_neg hne]
    simp only [List.map_map]
    show (groupKeys S).map (fun k => k) = groupKeys S
    exact List.map_id' _
  rw [hkeys]
  exact ⟨(groupKeys_sorted S).lt_of_le (groupKeys_nodup S),
    fun k => groupKeys_mem k S⟩

/-- Witness for C8 (amended) at the concrete sequence `exC8`. -/
theorem C8_amended_sorted_categories_witness :
    (¬ (exC8.isEmpty ∨ (exC8.map Record.hours).sum = 0)) ∧
    (((get_time_summary exC8).1.map Prod.fst).Sorted (· < ·) ∧
     ∀ k, k ∈ (get_time_summary exC8).1.map Prod.fst ↔
       k ∈ exC8.map Record.category) :=
  ⟨by norm_num [exC8], C8_amended_sorted_categories exC8 (by norm_num [exC8])⟩

/-- C9: the summary of the empty sequence is the empty-result marker with
total `0`, and any sequence whose hours sum to zero collapses to the same
empty-result signal. -/
theorem C9_empty_summary :
    get_time_summary [] = ([], 0) ∧
    ∀ S : List Record, (S.map Record.hours).sum = 0 →
      get_time_summary S = ([], 0) := by
  constructor
  · rfl
  · intro S h
    unfold get_time_summary
    rw [if_pos (Or.inr h)]

/-- Witness for C9 at a non-empty sequence with zero total hours. -/
theorem C9_empty_summary_witness :
    ((exC9.map Record.hours).sum = 0) ∧ get_time_summary exC9 = ([], 0) :=
  ⟨by simp [exC9], C9_empty_summary.2 exC9 (by simp [exC9])⟩

/-- C10: submitting the delete form with an empty selection performs no
write — the backing store is unchanged and the write flag stays `false`
(only a warning is shown). -/
theorem C10_empty_delete_is_noop (store : List Row) :
    deleteSubmit [] store = (store, false) := by
  unfold deleteSubmit
  cases h : loadStore store
  · rfl
  · rfl
